import Mathlib

/-!
Verification of the content-chunking and quota-resilient dispatch subsystem of
the `md_converter` repository, shallowly embedded in Lean.

Strings of the TypeScript source are modelled as `List Char`; JavaScript
numbers that are in fact integers (lengths, token counts, byte counts, codes)
are modelled as `Nat`, and the millisecond delay arithmetic of the retry
machinery (which multiplies by 1000 and divides by 1e6) as exact rationals
`ℚ`.  Fallible code returns `Except`/sum types, and the one recursion of the
source that is not structurally terminating (the chunk verifier) is embedded
with an explicit fuel parameter whose exhaustion is a distinguished outcome.
-/

set_option maxHeartbeats 1000000

namespace MdConverter

/-- Whitespace as JavaScript's `String.prototype.trim` and the regexp class
`\s` recognise it: ASCII blanks, NBSP, the Unicode space separators,
line/paragraph separators and the BOM. -/
def jsWhitespace (c : Char) : Bool :=
  c == ' ' || c == '\t' || c == '\n' || c == '\r' || c == '\x0b' || c == '\x0c' ||
  c == '\u00A0' || c == '\u1680' || ('\u2000' ≤ c && c ≤ '\u200A') ||
  c == '\u2028' || c == '\u2029' || c == '\u202F' || c == '\u205F' ||
  c == '\u3000' || c == '\uFEFF'

/-- JavaScript `text.trim()` on a string modelled as a list of characters:
drop leading and trailing whitespace. -/
def jsTrim (s : List Char) : List Char :=
  ((s.dropWhile jsWhitespace).reverse.dropWhile jsWhitespace).reverse

/-- A Gemini request content part (`GeminiContentPart` in `types.ts`): either
a text part or an inline-data part carrying a base64 payload (`mimeType` and
the base64 text `data`). -/
inductive GeminiContentPart where
  | text (content : List Char)
  | inlineData (mimeType : List Char) (data : List Char)
deriving DecidableEq

/-- `TEXT_PART_CHAR_LIMIT` of `contentChunker.ts` (12 000 characters). -/
def TEXT_PART_CHAR_LIMIT : Nat := 12000

/-- `estimateTokensForPart` of `contentChunker.ts`: a truthy (non-empty) text
gives `max(1, ceil(length / 4))` (`CHAR_PER_TOKEN_ESTIMATE = 4`); a truthy
inline-data payload likewise; anything else estimates to 0.  `ceil (n / 4)`
on integers is `(n + 3) / 4`. -/
def estimateTokensForPart : GeminiContentPart → Nat
  | .text s => if s.isEmpty then 0 else max 1 ((s.length + 3) / 4)
  | .inlineData _ d => if d.isEmpty then 0 else max 1 ((d.length + 3) / 4)

/-- `estimateBytesForPart` of `contentChunker.ts`: a truthy inline-data
payload gives `ceil(length * 3/4)` (the base64 decode ratio), everything
else 0.  `ceil (3 * n / 4)` on integers is `(3 * n + 3) / 4`. -/
def estimateBytesForPart : GeminiContentPart → Nat
  | .text _ => 0
  | .inlineData _ d => if d.isEmpty then 0 else (3 * d.length + 3) / 4

/-- Summed token estimate of a chunk. -/
def tokensOfChunk (c : List GeminiContentPart) : Nat :=
  (c.map estimateTokensForPart).sum

/-- Summed byte estimate of a chunk. -/
def bytesOfChunk (c : List GeminiContentPart) : Nat :=
  (c.map estimateBytesForPart).sum

/-- The mutable accumulator of `chunkContentParts` (`contentChunker.ts`,
lines 91–96): closed chunks with their token estimates, the open chunk with
its running token/byte totals, and the running total estimate. -/
structure PackState where
  chunks : List (List GeminiContentPart)
  chunkTokenEstimates : List Nat
  currentChunk : List GeminiContentPart
  currentTokens : Nat
  currentBytes : Nat
  estimatedTokens : Nat
deriving DecidableEq

/-- The accumulator before any part is processed. -/
def initPackState : PackState := ⟨[], [], [], 0, 0, 0⟩

/-- `flushChunk` of `chunkContentParts`: close the open chunk (when
non-empty), recording its token estimate, and reset the running totals. -/
def flushChunk (st : PackState) : PackState :=
  if st.currentChunk.isEmpty then st
  else
    { st with
      chunks := st.chunks ++ [st.currentChunk]
      chunkTokenEstimates := st.chunkTokenEstimates ++ [st.currentTokens]
      currentChunk := []
      currentTokens := 0
      currentBytes := 0 }

/-- The packer's one failure: the `Error` thrown at `contentChunker.ts`
lines 113–117 ("One of the extracted images is too large for the selected
model. ..."). -/
inductive PackError where
  | itemTooLarge
deriving DecidableEq

/-- Truthiness of `part.inlineData` in the source: the part is the
inline-data variant. -/
def isInlineDataPart : GeminiContentPart → Bool
  | .text _ => false
  | .inlineData _ _ => true

/-- The body of the `parts.forEach` loop of `chunkContentParts`
(`contentChunker.ts`, lines 108–129): add the part's token estimate to the
running total, fail if it is an oversized binary part, close the open chunk
when adding the part would push either running total over its limit, and add
the part to the (possibly fresh) open chunk. -/
def packStep (chunkTokenLimit binaryByteLimit : Nat) (st : PackState)
    (part : GeminiContentPart) : Except PackError PackState :=
  let partTokens := estimateTokensForPart part
  let partBytes := estimateBytesForPart part
  let st1 : PackState := { st with estimatedTokens := st.estimatedTokens + partTokens }
  if isInlineDataPart part ∧ binaryByteLimit < partBytes then
    .error .itemTooLarge
  else
    let wouldExceedTokens := chunkTokenLimit < st1.currentTokens + partTokens
    let wouldExceedBytes := binaryByteLimit < st1.currentBytes + partBytes
    let st2 :=
      if (wouldExceedTokens ∨ wouldExceedBytes) ∧ ¬st1.currentChunk.isEmpty then
        flushChunk st1
      else st1
    .ok
      { st2 with
        currentChunk := st2.currentChunk ++ [part]
        currentTokens := st2.currentTokens + partTokens
        currentBytes := st2.currentBytes + partBytes }

/-- The record returned by `chunkContentParts` (`ChunkContentResult` in
`contentChunker.ts`, lines 77–83). -/
structure ChunkContentResult where
  chunks : List (List GeminiContentPart)
  estimatedTokens : Nat
  chunkTokenLimit : Nat
  binaryByteLimit : Nat
  chunkTokenEstimates : List Nat
deriving DecidableEq

/-- `chunkContentParts` of `contentChunker.ts` (lines 85–140).  The source
derives `chunkTokenLimit` and `binaryByteLimit` from `modelTokenLimit` via
floating-point constants before the loop; here the two derived budgets are
taken as parameters (every theorem below quantifies over them), and the
remainder is embedded verbatim: the `forEach` loop is `foldlM` over the parts
with the thrown error as the `Except` error, followed by the final flush and
the source's two emptiness fallbacks. -/
def chunkContentParts (parts : List GeminiContentPart)
    (chunkTokenLimit binaryByteLimit : Nat) : Except PackError ChunkContentResult :=
  match parts.foldlM (packStep chunkTokenLimit binaryByteLimit) initPackState with
  | .error e => .error e
  | .ok st =>
    let stf := flushChunk st
    .ok
      { chunks := if stf.chunks.isEmpty then (if parts.isEmpty then [] else [parts]) else stf.chunks
        estimatedTokens := stf.estimatedTokens
        chunkTokenLimit := chunkTokenLimit
        binaryByteLimit := binaryByteLimit
        chunkTokenEstimates :=
          if stf.chunkTokenEstimates.isEmpty then
            (if parts.isEmpty then [] else [stf.estimatedTokens])
          else stf.chunkTokenEstimates }

/-- Invariant of the packing loop: the closed chunks followed by the open
chunk flatten to exactly the processed parts; closed chunks are non-empty;
every chunk (closed or open) with at least two units is within both
estimated budgets; and the running totals are the open chunk's sums. -/
def PackInv (chunkTokenLimit binaryByteLimit : Nat) (st : PackState)
    (processed : List GeminiContentPart) : Prop :=
  st.chunks.flatten ++ st.currentChunk = processed ∧
  (∀ c ∈ st.chunks, c ≠ []) ∧
  (∀ c ∈ st.chunks, 2 ≤ c.length →
    tokensOfChunk c ≤ chunkTokenLimit ∧ bytesOfChunk c ≤ binaryByteLimit) ∧
  st.currentTokens = tokensOfChunk st.currentChunk ∧
  st.currentBytes = bytesOfChunk st.currentChunk ∧
  (2 ≤ st.currentChunk.length →
    tokensOfChunk st.currentChunk ≤ chunkTokenLimit ∧
      bytesOfChunk st.currentChunk ≤ binaryByteLimit)

/-- The global replace `text.replace(/\r\n/g, '\n')` at the top of
`splitTextChunk`: scan left to right, rewriting each (non-overlapping)
occurrence of CR LF to LF. -/
def normalizeCRLF : List Char → List Char
  | [] => []
  | '\r' :: '\n' :: rest => '\n' :: normalizeCRLF rest
  | c :: rest => c :: normalizeCRLF rest

/-- An occurrence of the paragraph boundary `"\n\n"` starts at index `i`
of `s`. -/
def breakAt (s : List Char) (i : Nat) : Bool :=
  s[i]? == some '\n' && s[i + 1]? == some '\n'

/-- `normalized.lastIndexOf('\n\n', n)`: the largest index `≤ n` at which a
paragraph boundary starts, or `-1` when there is none. -/
def lastBreakBefore (s : List Char) : Nat → Int
  | 0 => if breakAt s 0 then 0 else -1
  | n + 1 => if breakAt s (n + 1) then ((n + 1 : Nat) : Int) else lastBreakBefore s n

/-- `normalized.indexOf('\n\n', i)`: the smallest index `≥ i` at which a
paragraph boundary starts, or `-1` when there is none.  An occurrence needs
two characters, so the scan stops once `i + 1` reaches the length. -/
def firstBreakFrom (s : List Char) (i : Nat) : Int :=
  if h : i + 1 < s.length then
    if breakAt s i then (i : Int) else firstBreakFrom s (i + 1)
  else -1
termination_by s.length - i

/-- The split-point computation in the body of `splitTextChunk`'s `while`
loop (`contentChunker.ts`, lines 54–61): look backward from
`start + TEXT_PART_CHAR_LIMIT` for a paragraph boundary; if that lands at or
before `start`, look forward; if that also fails, hard-cut at the tentative
end. -/
def nextSplitIndex (s : List Char) (start : Nat) : Nat :=
  let tentativeEnd := start + TEXT_PART_CHAR_LIMIT
  let si1 := lastBreakBefore s tentativeEnd
  let si2 := if si1 ≤ (start : Int) then firstBreakFrom s tentativeEnd else si1
  if si2 ≤ (start : Int) then tentativeEnd else si2.toNat

/-- The `while (start < normalized.length)` loop of `splitTextChunk`
(`contentChunker.ts`, lines 47–65), with an explicit structural fuel so that
it evaluates in the kernel: emit the remainder once it fits in
`TEXT_PART_CHAR_LIMIT`, otherwise emit the slice up to `nextSplitIndex` and
continue there.  Each iteration strictly advances `start` (see
`nextSplitIndex_gt` below), so any fuel exceeding `s.length - start`
reproduces the loop exactly. -/
def splitLoopAux (s : List Char) : Nat → Nat → List (List Char)
  | 0, _ => []
  | fuel + 1, start =>
    if start < s.length then
      if s.length - start ≤ TEXT_PART_CHAR_LIMIT then
        [s.drop start]
      else
        (s.drop start).take (nextSplitIndex s start - start) ::
          splitLoopAux s fuel (nextSplitIndex s start)
    else []

/-- The splitting loop with adequate fuel (`s.length + 1` dominates the
`≤ s.length - start + 1` iterations the loop can make). -/
def splitLoop (s : List Char) (start : Nat) : List (List Char) :=
  splitLoopAux s (s.length + 1) start

/-- `splitTextChunk` of `contentChunker.ts` (lines 42–68): normalise line
endings, run the splitting loop from 0, and drop the blocks that are
whitespace-only (`chunk.trim().length > 0`). -/
def splitTextChunk (text : List Char) : List (List Char) :=
  (splitLoop (normalizeCRLF text) 0).filter (fun chunk => decide (0 < (jsTrim chunk).length))

/-- `splitTextIntoParts` of `contentChunker.ts` (lines 70–75): the empty or
whitespace-only string yields no parts, otherwise each block of
`splitTextChunk` becomes a text part. -/
def splitTextIntoParts (text : List Char) : List GeminiContentPart :=
  if (jsTrim text).isEmpty then []
  else (splitTextChunk text).map (fun chunk => .text chunk)

/-- Outcome of the chunk verifier: the accepted chunks paired with their
recorded exact token counts, one of the two errors thrown by
`splitChunkRecursively` (`fileProcessor` source, lines 130–142), or
exhaustion of the embedding's fuel (the source has no such bound; a run that
exhausts every finite fuel is a non-terminating run of the source). -/
inductive VerifyOutcome where
  | ok (chunks : List (List GeminiContentPart)) (tokenCounts : List Nat)
  | unsplittableOversizedText
  | oversizedSingleBlock
  | outOfFuel
deriving DecidableEq

/-- Sequencing of two verifier sub-runs: the source awaits the first half and
then the second, pushing into shared arrays; an error in the first half
propagates before the second runs. -/
def VerifyOutcome.andThen : VerifyOutcome → VerifyOutcome → VerifyOutcome
  | .ok c1 t1, .ok c2 t2 => .ok (c1 ++ c2) (t1 ++ t2)
  | .ok _ _, e => e
  | e, _ => e

/-- `splitChunkRecursively` of the fileProcessor source (lines 117–147),
with the remote `countTokensForParts` abstracted as the pure authoritative
`counter` and an explicit fuel.  Empty part lists contribute nothing; a
chunk whose count fits is accepted with its count; an oversized singleton
that is a truthy text part is re-split via `splitTextIntoParts` (failing
with the "Unable to split an oversized text block" error only when that
yields nothing); any other oversized singleton fails with the "single image
or binary block" error; an oversized multi-part chunk is split at
`Math.ceil(length / 2)` and both halves are verified in order. -/
def splitChunkRecursively (counter : List GeminiContentPart → Nat) (chunkTokenLimit : Nat) :
    Nat → List GeminiContentPart → VerifyOutcome
  | 0, _ => .outOfFuel
  | _ + 1, [] => .ok [] []
  | fuel + 1, p :: rest =>
    let tokenCount := counter (p :: rest)
    if tokenCount ≤ chunkTokenLimit then .ok [p :: rest] [tokenCount]
    else if rest.isEmpty then
      match p with
      | .text s =>
        if s.isEmpty then .oversizedSingleBlock
        else
          let smallerParts := splitTextIntoParts s
          if smallerParts.isEmpty then .unsplittableOversizedText
          else splitChunkRecursively counter chunkTokenLimit fuel smallerParts
      | .inlineData _ _ => .oversizedSingleBlock
    else
      let midpoint := ((p :: rest).length + 1) / 2
      (splitChunkRecursively counter chunkTokenLimit fuel ((p :: rest).take midpoint)).andThen
        (splitChunkRecursively counter chunkTokenLimit fuel ((p :: rest).drop midpoint))

/-- `ensureChunksWithinTokenLimit` of the fileProcessor source (lines
107–155): verify each packed chunk in order, accumulating the safe chunks
and their exact token counts. -/
def ensureChunksWithinTokenLimit (initialChunks : List (List GeminiContentPart))
    (counter : List GeminiContentPart → Nat) (chunkTokenLimit : Nat) (fuel : Nat) :
    VerifyOutcome :=
  initialChunks.foldl
    (fun acc chunkParts =>
      acc.andThen (splitChunkRecursively counter chunkTokenLimit fuel chunkParts))
    (.ok [] [])

/-- `tokenCounts.reduce((sum, value) => sum + value, 0)` of the fileProcessor
source (line 153). -/
def totalTokensOf (tokenCounts : List Nat) : Nat :=
  tokenCounts.foldl (fun sum value => sum + value) 0

/-- Decimal digits folded to their value. -/
def digitsToNat (ds : List Char) : Nat :=
  ds.foldl (fun n c => 10 * n + (c.toNat - '0'.toNat)) 0

/-- Value of an exponent's digit run, `none` when there is no digit (in which
case `parseFloat` ignores the exponent marker). -/
def expDigitsVal (t : List Char) : Option Nat :=
  let ds := t.takeWhile Char.isDigit
  if ds.isEmpty then none else some (digitsToNat ds)

/-- The signed exponent after a parsed `e`/`E`. -/
def parseExpAfterE : List Char → Int
  | '-' :: t => (match expDigitsVal t with | some n => -(n : Int) | none => 0)
  | '+' :: t => (match expDigitsVal t with | some n => (n : Int) | none => 0)
  | t => (match expDigitsVal t with | some n => (n : Int) | none => 0)

/-- JavaScript `parseFloat` over exact rationals: skip leading whitespace,
optional sign, integer digits, optional fraction, optional well-formed
exponent; `none` models `NaN` (no digit at all).  The special literal
`Infinity` is not modelled: every consumer in the source either guards the
result with `Number.isFinite` (rejecting it) or receives only digit/dot
input. -/
def jsParseFloat (s : List Char) : Option ℚ :=
  let s1 := s.dropWhile jsWhitespace
  let sign : ℚ := match s1 with | '-' :: _ => -1 | _ => 1
  let s2 : List Char := match s1 with | '-' :: t => t | '+' :: t => t | _ => s1
  let ip := s2.takeWhile Char.isDigit
  let s3 := s2.dropWhile Char.isDigit
  let fp : List Char := match s3 with | '.' :: t => t.takeWhile Char.isDigit | _ => []
  let s4 : List Char := match s3 with | '.' :: t => t.dropWhile Char.isDigit | _ => s3
  if ip.isEmpty ∧ fp.isEmpty then none
  else
    let mant : ℚ := (digitsToNat ip : ℚ) + (digitsToNat fp : ℚ) / ((10 : ℚ) ^ fp.length)
    let e : Int :=
      match s4 with
      | 'e' :: t => parseExpAfterE t
      | 'E' :: t => parseExpAfterE t
      | _ => 0
    some (sign * mant * (10 : ℚ) ^ e)

/-- The `retryDelay` field consumed by `parseRetryDelayMs`
(`geminiService.ts`, lines 10–32): either a string such as `"7s"`, or an
object whose `seconds` / `nanos` fields are numbers when present (modelled
as exact rationals; a field of any other type is `none`). -/
inductive RetryDelayValue where
  | str (s : List Char)
  | obj (seconds : Option ℚ) (nanos : Option ℚ)
deriving DecidableEq

/-- `retryDelay.replace(/s$/i, '')`: drop one trailing `s`/`S`. -/
def stripTrailingS (s : List Char) : List Char :=
  match s.reverse with
  | c :: rest => if c == 's' || c == 'S' then rest.reverse else s
  | [] => s

/-- `parseRetryDelayMs` of `geminiService.ts` (lines 10–32): a falsy
(absent or empty-string) delay gives `undefined`; a string is stripped of a
trailing `s` and parsed, giving `max(0, numeric * 1000)` when finite; an
object prefers a numeric `seconds` (`max(0, seconds * 1000)`), then a
numeric `nanos` (`max(0, nanos / 1e6)`). -/
def parseRetryDelayMs : Option RetryDelayValue → Option ℚ
  | none => none
  | some (.str s) =>
    if s.isEmpty then none
    else
      match jsParseFloat (stripTrailingS s) with
      | some numeric => some (max 0 (numeric * 1000))
      | none => none
  | some (.obj seconds nanos) =>
    match seconds with
    | some q => some (max 0 (q * 1000))
    | none =>
      match nanos with
      | some q => some (max 0 (q / 1000000))
      | none => none

/-- One entry of the quota payload's `details` array: `isRetryInfo` models
`detail && typeof detail === 'object' &&
detail['@type']?.toString().includes('RetryInfo')` (an entry that is not an
object simply has it false), `retryDelay` the entry's delay field. -/
structure RetryDetail where
  isRetryInfo : Bool
  retryDelay : Option RetryDelayValue
deriving DecidableEq

/-- The structured error payload (`payload` in `parseQuotaError`):
`details = none` models an absent or non-array `details`. -/
structure ErrorPayload where
  status : Option (List Char)
  code : Option Nat
  message : Option (List Char)
  details : Option (List RetryDetail)
deriving DecidableEq

/-- A rejection value as `parseQuotaError` (`geminiService.ts`, lines
58–93) inspects it.  `status`/`code` are the error object's own fields;
`errMessage = some m` models `error instanceof Error` with message `m`;
`payload` is the result of `extractPayloadFromError` (the source's three
extraction paths — a direct `error` field, a nested `response.data.error`,
or a JSON-parsed `Error.message` — all end in such a payload or `null`). -/
structure GenError where
  status : Option (List Char)
  code : Option Nat
  errMessage : Option (List Char)
  payload : Option ErrorPayload
deriving DecidableEq

/-- JavaScript truthiness of an optional string. -/
def strTruthy : Option (List Char) → Bool
  | some s => !s.isEmpty
  | none => false

/-- `a || b` on optional strings. -/
def jsOrStr (a b : Option (List Char)) : Option (List Char) :=
  if strTruthy a then a else b

/-- JavaScript truthiness of an optional number. -/
def numTruthy : Option Nat → Bool
  | some n => decide (n ≠ 0)
  | none => false

/-- `a || b` on optional numbers. -/
def jsOrNum (a b : Option Nat) : Option Nat :=
  if numTruthy a then a else b

/-- `(error instanceof Error ? error.message : payload?.message) || ''` of
`parseQuotaError` (line 62). -/
def messageOf (e : GenError) : List Char :=
  match e.errMessage with
  | some m => m
  | none =>
    match e.payload with
    | some p => p.message.getD []
    | none => []

/-- Case-insensitive character equality (both sides lowered). -/
def charLowerEq (a b : Char) : Bool := a.toLower == b.toLower

/-- Case-insensitive "the first list starts the second". -/
def startsWithCI : List Char → List Char → Bool
  | [], _ => true
  | _ :: _, [] => false
  | p :: ps, t :: ts => charLowerEq p t && startsWithCI ps ts

/-- Case-insensitive substring test, as `/pat/i.test(text)`. -/
def containsCI (pat : List Char) : List Char → Bool
  | [] => pat.isEmpty
  | c :: rest => startsWithCI pat (c :: rest) || containsCI pat rest

/-- Case-sensitive "the first list starts the second". -/
def startsWithCS : List Char → List Char → Bool
  | [], _ => true
  | _ :: _, [] => false
  | p :: ps, t :: ts => p == t && startsWithCS ps ts

/-- Case-sensitive substring test, as `/pat/.test(text)`. -/
def containsCS (pat : List Char) : List Char → Bool
  | [] => pat.isEmpty
  | c :: rest => startsWithCS pat (c :: rest) || containsCS pat rest

/-- Dot-or-digit, the class `[0-9.]` of the retry regexp. -/
def isDigitOrDot (c : Char) : Bool := c == '.' || c.isDigit

/-- The literal head `retry in` of the retry regexp. -/
def retryLiteral : List Char := "retry in".toList

/-- Match of `/retry in\s+([0-9.]+)s/i` anchored at the head of `l`,
returning the capture group.  The regexp's classes make the greedy scan
deterministic: `\s` and `[0-9.]` are disjoint, and `s` is not in `[0-9.]`,
so the whitespace run and the digit/dot run are exactly the maximal ones and
the final `s` can only follow the full run. -/
def tryRetryMatchAt (l : List Char) : Option (List Char) :=
  if startsWithCI retryLiteral l then
    let rest := l.drop retryLiteral.length
    if (rest.takeWhile jsWhitespace).isEmpty then none
    else
      let rest2 := rest.dropWhile jsWhitespace
      let run := rest2.takeWhile isDigitOrDot
      if run.isEmpty then none
      else
        match rest2.drop run.length with
        | c :: _ => if c == 's' || c == 'S' then some run else none
        | [] => none
  else none

/-- `message.match(/retry in\s+([0-9.]+)s/i)`: the capture group of the
leftmost match, scanning candidate start positions left to right. -/
def findRetryMatch : List Char → Option (List Char)
  | [] => none
  | c :: rest =>
    match tryRetryMatchAt (c :: rest) with
    | some cap => some cap
    | none => findRetryMatch rest

/-- Result of `parseQuotaError`. -/
structure QuotaParseResult where
  isQuota : Bool
  retryDelayMs : Option ℚ
deriving DecidableEq

/-- The marker string of quota rejections. -/
def quotaStatusText : List Char := "RESOURCE_EXHAUSTED".toList

/-- The quota keyword of the message heuristic. -/
def quotaWord : List Char := "quota".toList

/-- The result of the `details` loop of `parseQuotaError` (lines 75–83):
the parsed `retryDelay` of the first `RetryInfo` entry of the payload's
`details` array (the loop `break`s after it), `none` when there is no such
entry or the parse yields `undefined`. -/
def structuredRetryDelayMs (e : GenError) : Option ℚ :=
  match e.payload with
  | some p =>
    match p.details with
    | some ds =>
      match ds.find? (fun d => d.isRetryInfo) with
      | some d => parseRetryDelayMs d.retryDelay
      | none => none
    | none => none
  | none => none

/-- `parseQuotaError` of `geminiService.ts` (lines 58–93): classify the
rejection (`status === 'RESOURCE_EXHAUSTED'`, `code === 429`, `/quota/i` or
`/RESOURCE_EXHAUSTED/` on the message), then compute the retry delay: the
structured delay of the first `RetryInfo` detail, overridden — when that is
falsy (`undefined` or `0`) — by the parse of the message's
`retry in N s` capture when the message matches. -/
def parseQuotaError (e : GenError) : QuotaParseResult :=
  let status := jsOrStr e.status (match e.payload with | some p => p.status | none => none)
  let code := jsOrNum e.code (match e.payload with | some p => p.code | none => none)
  let message := messageOf e
  let isQuota := status == some quotaStatusText || code == some 429 ||
    containsCI quotaWord message || containsCS quotaStatusText message
  if isQuota then
    let r1 := structuredRetryDelayMs e
    let r2 :=
      if r1 = none ∨ r1 = some 0 then
        match findRetryMatch message with
        | some cap => parseRetryDelayMs (some (.str (cap ++ ['s'])))
        | none => r1
      else r1
    { isQuota := true, retryDelayMs := r2 }
  else { isQuota := false, retryDelayMs := none }

/-- `MAX_RATE_LIMIT_RETRIES` of `geminiService.ts`. -/
def MAX_RATE_LIMIT_RETRIES : Nat := 3

/-- `DEFAULT_RATE_LIMIT_DELAY_MS` of `geminiService.ts` (20 000 ms). -/
def DEFAULT_RATE_LIMIT_DELAY_MS : ℚ := 20000

/-- `retryDelayMs ?? DEFAULT_RATE_LIMIT_DELAY_MS` (line 175): the wait the
dispatch loop sleeps for a quota rejection. -/
def computeWaitMs (e : GenError) : ℚ :=
  (parseQuotaError e).retryDelayMs.getD DEFAULT_RATE_LIMIT_DELAY_MS

/-- The message's own retry hint: `none` when the message has no
`retry in N s` match at all, `some (parse of the capture)` when it has one
(the inner option is `none` when the capture — all dots — parses to NaN). -/
def patternRetryDelayMs (e : GenError) : Option (Option ℚ) :=
  match findRetryMatch (messageOf e) with
  | some cap => some (parseRetryDelayMs (some (.str (cap ++ ['s']))))
  | none => none

/-- The wait-selection rule exactly as the claim states it: the structured
retry delay whenever present; otherwise the message pattern's value; and 20
seconds only when neither is present. -/
def claimedWaitMs (structured : Option ℚ) (pattern : Option (Option ℚ)) : ℚ :=
  match structured with
  | some v => v
  | none =>
    match pattern with
    | some (some w) => w
    | _ => 20000

/-- The wait-selection rule the code implements: a present non-zero
structured delay wins; a structured delay that is absent or zero defers to
the message pattern's parsed value when the pattern parses; a zero
structured delay with no pattern match at all is kept (a zero wait); every
remaining case (nothing present, or only an unparseable pattern) waits 20
seconds. -/
def amendedWaitMs (structured : Option ℚ) (pattern : Option (Option ℚ)) : ℚ :=
  match structured with
  | some v =>
    if v ≠ 0 then v
    else
      match pattern with
      | some (some w) => w
      | some none => 20000
      | none => v
  | none =>
    match pattern with
    | some (some w) => w
    | _ => 20000

/-- Observable trace of one `generateMarkdownStream` run: how many times the
generation call was invoked, the injected sleeps in order, and the outcome. -/
structure DispatchTrace where
  attempts : Nat
  sleepsMs : List ℚ
  result : Except GenError (List Char)

/-- The `while (true)` retry loop of `generateMarkdownStream`
(`geminiService.ts`, lines 151–183), with the remote call abstracted as
`send` (indexed by the attempt counter, which the source increments exactly
once per quota retry): a successful call returns its streamed text; a
quota-classified error with `attempt < MAX_RATE_LIMIT_RETRIES` sleeps the
computed wait and retries; anything else propagates. -/
def dispatchLoopAux (send : Nat → Except GenError (List Char)) :
    Nat → Nat → DispatchTrace
  | left, attempt =>
    match send attempt with
    | .ok text => { attempts := 1, sleepsMs := [], result := .ok text }
    | .error e =>
      if (parseQuotaError e).isQuota = true ∧ attempt < MAX_RATE_LIMIT_RETRIES then
        match left with
        | left' + 1 =>
          let tail := dispatchLoopAux send left' (attempt + 1)
          { attempts := tail.attempts + 1
            sleepsMs := computeWaitMs e :: tail.sleepsMs
            result := tail.result }
        | 0 => { attempts := 1, sleepsMs := [], result := .error e }
      else { attempts := 1, sleepsMs := [], result := .error e }

/-- `generateMarkdownStream`'s dispatch behaviour for one chunk: the retry
loop started with `attempt = 0`.  The structural fuel
`MAX_RATE_LIMIT_RETRIES` keeps the invariant
`left = MAX_RATE_LIMIT_RETRIES - attempt`, under which the fuel can never
run out before the source's own `attempt < MAX_RATE_LIMIT_RETRIES` test
stops the recursion, so the `left = 0` fallback of `dispatchLoopAux` is
unreachable. -/
def generateMarkdownStreamModel (send : Nat → Except GenError (List Char)) : DispatchTrace :=
  dispatchLoopAux send MAX_RATE_LIMIT_RETRIES 0

/-- Input on which the Text Splitter emits a block longer than the character
ceiling: 12 001 letters with the first paragraph boundary just past the
12 000-character mark.  The backward search finds nothing at or before the
mark, and the forward search extends the block to the boundary at index
12 001. -/
def oversizedBlockInput : List Char :=
  List.replicate 12001 'a' ++ ['\n', '\n', 'a']

/-- A rejection that is quota-classified through its `code === 429` and
carries no delay information at all (so the computed wait is the 20 s
default). -/
def quotaTestError : GenError := { status := none, code := some 429, errMessage := none, payload := none }

/-- A rejection that is not quota-classified (code 400, empty message). -/
def plainTestError : GenError := { status := none, code := some 400, errMessage := none, payload := none }

/-- A quota rejection whose structured `RetryInfo` delay is present and zero
while its message carries a `retry in 7s` hint. -/
def zeroDelayQuotaError : GenError :=
  { status := none
    code := some 429
    errMessage := some "quota exceeded, retry in 7s".toList
    payload := some
      { status := none, code := none, message := none
        details := some [{ isRetryInfo := true, retryDelay := some (.obj (some 0) none) }] } }

/-- A quota rejection whose only delay information is the message pattern
`retry in 5s`. -/
def patternQuotaError : GenError :=
  { status := none, code := some 429
    errMessage := some "retry in 5s".toList, payload := none }

/-- The accumulation
`fullMarkdown += (fullMarkdown ? '\n\n' : '') + chunkMarkdown.trim()` of the
per-chunk loops of `processPdf` (line 321) and `processHtml` (line 481),
folded over the per-chunk generated texts. -/
def dispatchConcat (chunkTexts : List (List Char)) : List Char :=
  chunkTexts.foldl
    (fun fullMarkdown chunkMarkdown =>
      fullMarkdown ++ (if fullMarkdown.isEmpty then [] else ['\n', '\n']) ++ jsTrim chunkMarkdown)
    []

/-! ## Packer lemmas -/

theorem except_ok_bind {ε α β : Type} (a : α) (k : α → Except ε β) :
    (Except.ok a >>= k) = k a := rfl

theorem except_error_bind {ε α β : Type} (e : ε) (k : α → Except ε β) :
    ((Except.error e : Except ε α) >>= k) = Except.error e := rfl

theorem tokensOfChunk_append (c : List GeminiContentPart) (p : GeminiContentPart) :
    tokensOfChunk (c ++ [p]) = tokensOfChunk c + estimateTokensForPart p := by
  simp [tokensOfChunk]

theorem bytesOfChunk_append (c : List GeminiContentPart) (p : GeminiContentPart) :
    bytesOfChunk (c ++ [p]) = bytesOfChunk c + estimateBytesForPart p := by
  simp [bytesOfChunk]

theorem flushChunk_of_nonempty (st : PackState) (h : ¬st.currentChunk.isEmpty = true) :
    flushChunk st =
      { st with
        chunks := st.chunks ++ [st.currentChunk]
        chunkTokenEstimates := st.chunkTokenEstimates ++ [st.currentTokens]
        currentChunk := []
        currentTokens := 0
        currentBytes := 0 } := by
  unfold flushChunk
  simp [h]

theorem packStep_ok_inv {tl bl : Nat} {st st' : PackState} {p : GeminiContentPart}
    {pr : List GeminiContentPart} (hinv : PackInv tl bl st pr)
    (hstep : packStep tl bl st p = .ok st') : PackInv tl bl st' (pr ++ [p]) := by
  obtain ⟨hjoin, hne, hok, htok, hbyte, hcur⟩ := hinv
  by_cases hthrow : isInlineDataPart p = true ∧ bl < estimateBytesForPart p
  · simp only [packStep, if_pos hthrow] at hstep
    exact Except.noConfusion hstep
  · by_cases hflush :
      (tl < st.currentTokens + estimateTokensForPart p ∨
        bl < st.currentBytes + estimateBytesForPart p) ∧ ¬st.currentChunk.isEmpty = true
    · have hne2 := hflush.2
      simp only [packStep, if_neg hthrow, if_pos hflush, flushChunk, if_neg hne2,
        Except.ok.injEq] at hstep
      subst hstep
      refine ⟨?_, ?_, ?_, ?_, ?_, ?_⟩
      · simp only [List.flatten_append, List.flatten_cons, List.flatten_nil,
          List.append_nil, List.nil_append, List.append_assoc]
        rw [← List.append_assoc, hjoin]
      · intro c hc
        simp only [List.mem_append, List.mem_singleton] at hc
        rcases hc with hc | hc
        · exact hne c hc
        · subst hc
          simpa using hne2
      · intro c hc
        simp only [List.mem_append, List.mem_singleton] at hc
        rcases hc with hc | hc
        · exact hok c hc
        · subst hc
          exact hcur
      · simp [tokensOfChunk]
      · simp [bytesOfChunk]
      · intro hlen
        simp at hlen
    · simp only [packStep, if_neg hthrow, if_neg hflush, Except.ok.injEq] at hstep
      subst hstep
      refine ⟨?_, hne, hok, ?_, ?_, ?_⟩
      · simp only [List.append_assoc] at hjoin ⊢
        rw [← List.append_assoc, hjoin]
      · simp [tokensOfChunk_append, htok]
      · simp [bytesOfChunk_append, hbyte]
      · intro hlen
        by_cases hcc : st.currentChunk.isEmpty = true
        · rw [List.isEmpty_iff] at hcc
          simp [hcc] at hlen
        · have hnexc : ¬(tl < st.currentTokens + estimateTokensForPart p ∨
              bl < st.currentBytes + estimateBytesForPart p) := by
            intro h
            exact hflush ⟨h, hcc⟩
          push_neg at hnexc
          constructor
          · rw [tokensOfChunk_append, ← htok]
            exact hnexc.1
          · rw [bytesOfChunk_append, ← hbyte]
            exact hnexc.2

theorem packStep_error_iff {tl bl : Nat} {st : PackState} {p : GeminiContentPart} :
    (∃ e, packStep tl bl st p = .error e) ↔
      isInlineDataPart p = true ∧ bl < estimateBytesForPart p := by
  by_cases hthrow : isInlineDataPart p = true ∧ bl < estimateBytesForPart p
  · constructor
    · intro _
      exact hthrow
    · intro _
      exact ⟨.itemTooLarge, by simp only [packStep, if_pos hthrow]⟩
  · constructor
    · rintro ⟨e, he⟩
      simp only [packStep, if_neg hthrow] at he
      exact Except.noConfusion he
    · intro h
      exact absurd h hthrow

theorem pack_foldlM_ok_inv {tl bl : Nat} :
    ∀ (ps : List GeminiContentPart) (st st' : PackState) (pr : List GeminiContentPart),
      PackInv tl bl st pr → ps.foldlM (packStep tl bl) st = .ok st' →
      PackInv tl bl st' (pr ++ ps)
  | [], st, st', pr, hinv, hfold => by
    simp only [List.foldlM_nil] at hfold
    cases hfold
    simpa using hinv
  | p :: ps, st, st', pr, hinv, hfold => by
    simp only [List.foldlM_cons] at hfold
    cases hstep : packStep tl bl st p with
    | error e =>
      rw [hstep, except_error_bind] at hfold
      exact Except.noConfusion hfold
    | ok st1 =>
      rw [hstep, except_ok_bind] at hfold
      have h1 := packStep_ok_inv hinv hstep
      have h2 := pack_foldlM_ok_inv ps st1 st' (pr ++ [p]) h1 hfold
      simpa using h2

theorem pack_foldlM_error_iff {tl bl : Nat} :
    ∀ (ps : List GeminiContentPart) (st : PackState),
      (∃ e, ps.foldlM (packStep tl bl) st = .error e) ↔
        ∃ p ∈ ps, isInlineDataPart p = true ∧ bl < estimateBytesForPart p
  | [], st => by
    simp only [List.foldlM_nil]
    constructor
    · rintro ⟨e, he⟩
      exact Except.noConfusion he
    · rintro ⟨p, hp, _⟩
      exact absurd hp (List.not_mem_nil p)
  | p :: ps, st => by
    simp only [List.foldlM_cons]
    cases hstep : packStep tl bl st p with
    | error e =>
      have hcond := packStep_error_iff.mp ⟨e, hstep⟩
      rw [except_error_bind]
      constructor
      · intro _
        exact ⟨p, by simp, hcond⟩
      · intro _
        exact ⟨e, rfl⟩
    | ok st1 =>
      have hcond : ¬(isInlineDataPart p = true ∧ bl < estimateBytesForPart p) := by
        intro h
        obtain ⟨e, he⟩ := packStep_error_iff.mpr h
        rw [hstep] at he
        exact Except.noConfusion he
      rw [except_ok_bind, pack_foldlM_error_iff ps st1]
      constructor
      · rintro ⟨q, hq, hqc⟩
        exact ⟨q, by simp [hq], hqc⟩
      · rintro ⟨q, hq, hqc⟩
        rcases List.mem_cons.mp hq with rfl | hq
        · exact absurd hqc hcond
        · exact ⟨q, hq, hqc⟩

theorem flushChunk_inv {tl bl : Nat} {st : PackState} {pr : List GeminiContentPart}
    (hinv : PackInv tl bl st pr) :
    PackInv tl bl (flushChunk st) pr ∧ (flushChunk st).currentChunk = [] := by
  obtain ⟨hjoin, hne, hok, htok, hbyte, hcur⟩ := hinv
  by_cases hcc : st.currentChunk.isEmpty = true
  · rw [List.isEmpty_iff] at hcc
    unfold flushChunk
    simp only [hcc]
    simp only [List.isEmpty_nil, if_true]
    refine ⟨⟨?_, hne, hok, htok, hbyte, hcur⟩, hcc⟩
    exact hjoin
  · rw [flushChunk_of_nonempty _ hcc]
    refine ⟨⟨?_, ?_, ?_, ?_, ?_, ?_⟩, rfl⟩
    · simpa using hjoin
    · intro c hc
      simp only [List.mem_append, List.mem_singleton] at hc
      rcases hc with hc | hc
      · exact hne c hc
      · subst hc
        simpa using hcc
    · intro c hc
      simp only [List.mem_append, List.mem_singleton] at hc
      rcases hc with hc | hc
      · exact hok c hc
      · subst hc
        exact hcur
    · simp [tokensOfChunk]
    · simp [bytesOfChunk]
    · intro h
      simp at h

theorem chunkContentParts_ok_inv {tl bl : Nat} {parts : List GeminiContentPart}
    {res : ChunkContentResult} (h : chunkContentParts parts tl bl = .ok res) :
    res.chunks.flatten = parts ∧
    (∀ c ∈ res.chunks, c ≠ []) ∧
    (∀ c ∈ res.chunks, 2 ≤ c.length → tokensOfChunk c ≤ tl ∧ bytesOfChunk c ≤ bl) := by
  unfold chunkContentParts at h
  cases hfold : parts.foldlM (packStep tl bl) initPackState with
  | error e => rw [hfold] at h; exact Except.noConfusion h
  | ok st =>
    rw [hfold] at h
    have hinv0 : PackInv tl bl initPackState [] := by
      refine ⟨rfl, ?_, ?_, rfl, rfl, ?_⟩ <;> simp [initPackState, tokensOfChunk, bytesOfChunk]
    have hinv := pack_foldlM_ok_inv parts initPackState st [] hinv0 hfold
    simp only [List.nil_append] at hinv
    obtain ⟨hinvf, hcurf⟩ := flushChunk_inv hinv
    obtain ⟨hjoin, hne, hok, _, _, _⟩ := hinvf
    rw [hcurf, List.append_nil] at hjoin
    simp only [Except.ok.injEq] at h
    subst h
    by_cases hempty : (flushChunk st).chunks.isEmpty = true
    · rw [List.isEmpty_iff] at hempty
      rw [hempty] at hjoin
      simp only [List.flatten_nil] at hjoin
      have hpl : parts = [] := hjoin.symm
      subst hpl
      simp only [hempty]
      refine ⟨?_, ?_, ?_⟩ <;> simp
    · simp only [hempty, if_false]
      exact ⟨hjoin, hne, hok⟩

/-! ## C3: packer order preservation -/

/-- C3.  For every input unit sequence on which the packer raises no error,
flattening the returned chunks in order yields exactly the original input
sequence: no unit is reordered, dropped, duplicated, or modified. -/
theorem packer_order_preservation (parts : List GeminiContentPart)
    (tl bl : Nat) (res : ChunkContentResult)
    (h : chunkContentParts parts tl bl = .ok res) :
    res.chunks.flatten = parts :=
  (chunkContentParts_ok_inv h).1

/-- Witness for C3 at a concrete input: two text parts packed under budgets
10/10 flatten back to the input. -/
theorem packer_order_preservation_witness :
    (⟨[[GeminiContentPart.text ['h', 'i'], GeminiContentPart.text ['y', 'o']]], 2, 10, 10,
        [2]⟩ : ChunkContentResult).chunks.flatten =
      [GeminiContentPart.text ['h', 'i'], GeminiContentPart.text ['y', 'o']] :=
  packer_order_preservation
    [GeminiContentPart.text ['h', 'i'], GeminiContentPart.text ['y', 'o']] 10 10
    ⟨[[GeminiContentPart.text ['h', 'i'], GeminiContentPart.text ['y', 'o']]], 2, 10, 10, [2]⟩
    (by rfl)

/-! ## C7: the packer's only failure mode -/

/-- C7.  The packer raises the "item too large" error (its only error) if and
only if the input contains an inline-data unit whose byte estimate alone
exceeds the binary byte limit; on that error no chunks are produced (the
`Except.error` result carries nothing else). -/
theorem packer_item_too_large_iff (parts : List GeminiContentPart) (tl bl : Nat) :
    chunkContentParts parts tl bl = .error .itemTooLarge ↔
      ∃ p ∈ parts, isInlineDataPart p = true ∧ bl < estimateBytesForPart p := by
  unfold chunkContentParts
  cases hfold : parts.foldlM (packStep tl bl) initPackState with
  | error e =>
    cases e
    constructor
    · intro _
      exact (pack_foldlM_error_iff parts initPackState).mp ⟨.itemTooLarge, hfold⟩
    · intro _
      rfl
  | ok st =>
    constructor
    · intro h
      exact Except.noConfusion h
    · intro hex
      obtain ⟨e, he⟩ := (pack_foldlM_error_iff parts initPackState).mpr hex
      rw [hfold] at he
      exact Except.noConfusion he

/-! ## C9: packer chunk invariants -/

/-- C9.  Every chunk the packer returns is non-empty; every returned chunk
with two or more units respects both estimated budgets; and a returned chunk
that exceeds either estimated budget is necessarily a singleton whose one
(first) unit alone exceeds that budget. -/
theorem packer_chunk_invariants (parts : List GeminiContentPart) (tl bl : Nat)
    (res : ChunkContentResult) (h : chunkContentParts parts tl bl = .ok res) :
    (∀ c ∈ res.chunks, c ≠ []) ∧
    (∀ c ∈ res.chunks, 2 ≤ c.length → tokensOfChunk c ≤ tl ∧ bytesOfChunk c ≤ bl) ∧
    (∀ c ∈ res.chunks, tl < tokensOfChunk c ∨ bl < bytesOfChunk c →
      ∃ p, c = [p] ∧ (tl < estimateTokensForPart p ∨ bl < estimateBytesForPart p)) := by
  obtain ⟨_, hne, hok⟩ := chunkContentParts_ok_inv h
  refine ⟨hne, hok, ?_⟩
  intro c hc hover
  match c, hne c hc with
  | [p], _ =>
    refine ⟨p, rfl, ?_⟩
    simpa [tokensOfChunk, bytesOfChunk] using hover
  | p :: q :: rest, _ =>
    have hlen : 2 ≤ (p :: q :: rest).length := by simp
    have := hok _ hc hlen
    omega

/-- Witness for C9 at a concrete input: a single oversized text unit is an
(allowed) singleton chunk, and the invariants hold for the one returned
chunk. -/
theorem packer_chunk_invariants_witness :
    (∀ c ∈ (⟨[[GeminiContentPart.text ['a', 'b', 'c', 'd', 'e']]], 2, 1, 9, [2]⟩ :
        ChunkContentResult).chunks, c ≠ []) ∧
    (∀ c ∈ (⟨[[GeminiContentPart.text ['a', 'b', 'c', 'd', 'e']]], 2, 1, 9, [2]⟩ :
        ChunkContentResult).chunks, 2 ≤ c.length →
      tokensOfChunk c ≤ 1 ∧ bytesOfChunk c ≤ 9) ∧
    (∀ c ∈ (⟨[[GeminiContentPart.text ['a', 'b', 'c', 'd', 'e']]], 2, 1, 9, [2]⟩ :
        ChunkContentResult).chunks, 1 < tokensOfChunk c ∨ 9 < bytesOfChunk c →
      ∃ p, c = [p] ∧ (1 < estimateTokensForPart p ∨ 9 < estimateBytesForPart p)) :=
  packer_chunk_invariants [GeminiContentPart.text ['a', 'b', 'c', 'd', 'e']] 1 9
    ⟨[[GeminiContentPart.text ['a', 'b', 'c', 'd', 'e']]], 2, 1, 9, [2]⟩
    (by rfl)

/-! ## Verifier lemmas -/

theorem andThen_ok {x y : VerifyOutcome} {cs : List (List GeminiContentPart)} {ts : List Nat}
    (h : x.andThen y = .ok cs ts) :
    ∃ c1 t1 c2 t2, x = .ok c1 t1 ∧ y = .ok c2 t2 ∧ cs = c1 ++ c2 ∧ ts = t1 ++ t2 := by
  cases x <;> cases y <;> simp_all [VerifyOutcome.andThen]
  exact ⟨_, _, ⟨rfl, rfl⟩, _, _, ⟨rfl, rfl⟩, h.1.symm, h.2.symm⟩

theorem splitChunkRecursively_ok {counter : List GeminiContentPart → Nat} {L : Nat} :
    ∀ (fuel : Nat) (parts : List GeminiContentPart)
      (cs : List (List GeminiContentPart)) (ts : List Nat),
      splitChunkRecursively counter L fuel parts = .ok cs ts →
      (∀ c ∈ cs, counter c ≤ L) ∧ ts = cs.map counter
  | 0, parts, cs, ts, h => by simp [splitChunkRecursively] at h
  | _ + 1, [], cs, ts, h => by
    simp only [splitChunkRecursively, VerifyOutcome.ok.injEq] at h
    obtain ⟨h1, h2⟩ := h
    subst h1
    subst h2
    simp
  | fuel + 1, GeminiContentPart.text s :: rest, cs, ts, h => by
    simp only [splitChunkRecursively] at h
    split at h
    next haccept =>
      simp only [VerifyOutcome.ok.injEq] at h
      obtain ⟨h1, h2⟩ := h
      subst h1
      subst h2
      constructor
      · intro c hc
        rw [List.mem_singleton] at hc
        subst hc
        exact haccept
      · simp
    next hover =>
      split at h
      next hsingle =>
        split at h
        next => exact VerifyOutcome.noConfusion h
        next hsne =>
          split at h
          next => exact VerifyOutcome.noConfusion h
          next hsp => exact splitChunkRecursively_ok fuel (splitTextIntoParts s) cs ts h
      next hmulti =>
        obtain ⟨c1, t1, c2, t2, hx, hy, hcs, hts⟩ := andThen_ok h
        obtain ⟨hb1, hm1⟩ := splitChunkRecursively_ok fuel _ c1 t1 hx
        obtain ⟨hb2, hm2⟩ := splitChunkRecursively_ok fuel _ c2 t2 hy
        subst hcs
        subst hts
        constructor
        · intro c hc
          rcases List.mem_append.mp hc with hc | hc
          · exact hb1 c hc
          · exact hb2 c hc
        · simp [hm1, hm2]
  | fuel + 1, GeminiContentPart.inlineData m d :: rest, cs, ts, h => by
    simp only [splitChunkRecursively] at h
    split at h
    next haccept =>
      simp only [VerifyOutcome.ok.injEq] at h
      obtain ⟨h1, h2⟩ := h
      subst h1
      subst h2
      constructor
      · intro c hc
        rw [List.mem_singleton] at hc
        subst hc
        exact haccept
      · simp
    next hover =>
      split at h
      next hsingle => exact VerifyOutcome.noConfusion h
      next hmulti =>
        obtain ⟨c1, t1, c2, t2, hx, hy, hcs, hts⟩ := andThen_ok h
        obtain ⟨hb1, hm1⟩ := splitChunkRecursively_ok fuel _ c1 t1 hx
        obtain ⟨hb2, hm2⟩ := splitChunkRecursively_ok fuel _ c2 t2 hy
        subst hcs
        subst hts
        constructor
        · intro c hc
          rcases List.mem_append.mp hc with hc | hc
          · exact hb1 c hc
          · exact hb2 c hc
        · simp [hm1, hm2]

theorem ensure_foldl_ok {counter : List GeminiContentPart → Nat} {L : Nat} {fuel : Nat} :
    ∀ (ics : List (List GeminiContentPart)) (acc : VerifyOutcome)
      (cs : List (List GeminiContentPart)) (ts : List Nat),
      (∀ c0 t0, acc = .ok c0 t0 → (∀ c ∈ c0, counter c ≤ L) ∧ t0 = c0.map counter) →
      ics.foldl (fun a cp => a.andThen (splitChunkRecursively counter L fuel cp)) acc = .ok cs ts →
      (∀ c ∈ cs, counter c ≤ L) ∧ ts = cs.map counter
  | [], acc, cs, ts, hacc, hfold => by
    simp only [List.foldl_nil] at hfold
    exact hacc cs ts hfold
  | cp :: ics, acc, cs, ts, hacc, hfold => by
    simp only [List.foldl_cons] at hfold
    refine ensure_foldl_ok ics _ cs ts ?_ hfold
    intro c0 t0 hstep
    obtain ⟨c1, t1, c2, t2, hx, hy, hcs, hts⟩ := andThen_ok hstep
    obtain ⟨hb1, hm1⟩ := hacc c1 t1 hx
    obtain ⟨hb2, hm2⟩ := splitChunkRecursively_ok fuel cp c2 t2 hy
    subst hcs
    subst hts
    constructor
    · intro c hc
      rcases List.mem_append.mp hc with hc | hc
      · exact hb1 c hc
      · exact hb2 c hc
    · simp [hm1, hm2]

theorem totalTokensOf_eq_sum : ∀ (a : Nat) (ts : List Nat),
    ts.foldl (fun sum value => sum + value) a = a + ts.sum
  | _, [] => by simp
  | a, t :: ts => by
    simp only [List.foldl_cons, List.sum_cons]
    rw [totalTokensOf_eq_sum (a + t) ts]
    omega

/-! ## C1: budget respect and exact counts after verification -/

/-- C1.  For every list of packed chunks and every authoritative counter
(a pure function from a unit list to a token count), when the verifier
succeeds, every returned chunk's authoritative count is within
`chunkTokenLimit`, the recorded per-chunk counts are exactly the counter's
values for the returned chunks, and the reduced total is their sum. -/
theorem verifier_budget_and_exact_counts (initialChunks : List (List GeminiContentPart))
    (counter : List GeminiContentPart → Nat) (chunkTokenLimit fuel : Nat)
    (chunks : List (List GeminiContentPart)) (tokenCounts : List Nat)
    (h : ensureChunksWithinTokenLimit initialChunks counter chunkTokenLimit fuel =
      .ok chunks tokenCounts) :
    (∀ c ∈ chunks, counter c ≤ chunkTokenLimit) ∧
    tokenCounts = chunks.map counter ∧
    totalTokensOf tokenCounts = (chunks.map counter).sum := by
  unfold ensureChunksWithinTokenLimit at h
  obtain ⟨hb, hm⟩ := ensure_foldl_ok initialChunks (.ok [] []) chunks tokenCounts
    (by
      intro c0 t0 hacc
      simp only [VerifyOutcome.ok.injEq] at hacc
      obtain ⟨h1, h2⟩ := hacc
      subst h1
      subst h2
      simp) h
  refine ⟨hb, hm, ?_⟩
  rw [totalTokensOf, totalTokensOf_eq_sum, hm]
  simp

/-- Witness for C1 at a concrete input: a one-chunk list verified with the
counter "number of units" under limit 5. -/
theorem verifier_budget_and_exact_counts_witness :
    (∀ c ∈ [[GeminiContentPart.text ['h', 'i']]],
      (fun ps : List GeminiContentPart => ps.length) c ≤ 5) ∧
    [1] = [[GeminiContentPart.text ['h', 'i']]].map
      (fun ps : List GeminiContentPart => ps.length) ∧
    totalTokensOf [1] = ([[GeminiContentPart.text ['h', 'i']]].map
      (fun ps : List GeminiContentPart => ps.length)).sum :=
  verifier_budget_and_exact_counts [[GeminiContentPart.text ['h', 'i']]]
    (fun ps => ps.length) 5 3 [[GeminiContentPart.text ['h', 'i']]] [1] (by rfl)

/-! ## C2: the verifier's single-text-unit recursion does not terminate -/

/-- C2 failing input.  A chunk consisting of the single text unit `"aaaa"`
(no paragraph breaks, below the character ceiling, not whitespace-only), an
authoritative counter that reports 9000 tokens for every unit list, and
`chunkTokenLimit = 8000`.  `splitTextIntoParts` returns this very part
unchanged (one piece), the source's guard only fires on zero pieces, so
`splitChunkRecursively` re-enters itself with an identical argument: for
every fuel the embedding exhausts it, i.e. the source recurses forever
instead of failing with the descriptive error the specification requires
when the splitter cannot produce more than one piece. -/
theorem verifier_single_text_nontermination :
    ∀ fuel : Nat,
      splitChunkRecursively (fun _ => 9000) 8000 fuel
        [GeminiContentPart.text ['a', 'a', 'a', 'a']] = .outOfFuel := by
  intro fuel
  induction fuel with
  | zero => rfl
  | succ n ih =>
    have hsp : splitTextIntoParts ['a', 'a', 'a', 'a'] =
        [GeminiContentPart.text ['a', 'a', 'a', 'a']] := by decide
    simp only [splitChunkRecursively, hsp]
    norm_num
    exact ih

/-! ## C5: the dispatch retry bound -/

/-- C5.  First part: a generation call that raises a quota-classified error
on every invocation is attempted exactly 4 times (3 retries); the injected
sleeps are exactly the three computed waits of the first three rejections
(so their total is the sum of the 3 computed delays), and the fourth
rejection is propagated.  Second part: a non-quota first error is propagated
immediately, with one attempt and no sleep. -/
theorem dispatch_retry_bound :
    (∀ (send : Nat → Except GenError (List Char)) (errs : Nat → GenError),
      (∀ i, send i = .error (errs i)) →
      (∀ i, (parseQuotaError (errs i)).isQuota = true) →
      generateMarkdownStreamModel send =
        ⟨4, [computeWaitMs (errs 0), computeWaitMs (errs 1), computeWaitMs (errs 2)],
          .error (errs 3)⟩) ∧
    (∀ (send : Nat → Except GenError (List Char)) (e : GenError),
      send 0 = .error e → (parseQuotaError e).isQuota = false →
      generateMarkdownStreamModel send = ⟨1, [], .error e⟩) := by
  constructor
  · intro send errs hsend hq
    have h3 : dispatchLoopAux send 0 3 = ⟨1, [], .error (errs 3)⟩ := by
      simp [dispatchLoopAux, hsend 3, MAX_RATE_LIMIT_RETRIES]
    have h2 : dispatchLoopAux send 1 2 = ⟨2, [computeWaitMs (errs 2)], .error (errs 3)⟩ := by
      simp [dispatchLoopAux, hsend 2, hq 2, h3, MAX_RATE_LIMIT_RETRIES]
    have h1 : dispatchLoopAux send 2 1 =
        ⟨3, [computeWaitMs (errs 1), computeWaitMs (errs 2)], .error (errs 3)⟩ := by
      simp [dispatchLoopAux, hsend 1, hq 1, h2, MAX_RATE_LIMIT_RETRIES]
    show dispatchLoopAux send MAX_RATE_LIMIT_RETRIES 0 = _
    simp [dispatchLoopAux, hsend 0, hq 0, h1, MAX_RATE_LIMIT_RETRIES]
  · intro send e hsend hq
    show dispatchLoopAux send MAX_RATE_LIMIT_RETRIES 0 = _
    simp [dispatchLoopAux, hsend, hq]

/-- Witness for C5 at concrete inputs: a constant 429-rejection is attempted
4 times with three 20 s default sleeps; a constant 400-rejection is attempted
once with no sleep. -/
theorem dispatch_retry_bound_witness :
    generateMarkdownStreamModel (fun _ => .error quotaTestError) =
      ⟨4, [computeWaitMs quotaTestError, computeWaitMs quotaTestError,
        computeWaitMs quotaTestError], .error quotaTestError⟩ ∧
    generateMarkdownStreamModel (fun _ => .error plainTestError) =
      ⟨1, [], .error plainTestError⟩ :=
  ⟨dispatch_retry_bound.1 (fun _ => .error quotaTestError) (fun _ => quotaTestError)
      (fun _ => rfl)
      (fun _ => (by decide : (parseQuotaError quotaTestError).isQuota = true)),
    dispatch_retry_bound.2 (fun _ => .error plainTestError) plainTestError rfl (by decide)⟩

/-! ## C8: the dispatch loop's concatenation -/

/-- C8 counterexample.  When the first chunk's trimmed text is empty and a
later one is not, the code appends the later text to the still-empty
accumulator without a separator: the output for trimmed texts `["", "a"]` is
`"a"`, whereas joining the trimmed texts with a blank line (the claim as
stated) gives `"\n\na"`. -/
theorem dispatch_concat_counterexample :
    dispatchConcat [[], ['a']] = ['a'] ∧
    List.intercalate ['\n', '\n'] ([[], ['a']].map jsTrim) = ['\n', '\n', 'a'] ∧
    dispatchConcat [[], ['a']] ≠
      List.intercalate ['\n', '\n'] ([[], ['a']].map jsTrim) := by
  refine ⟨by decide, by decide, by decide⟩

theorem dispatch_concat_foldl_of_ne (sep : List Char) :
    ∀ (ts : List (List Char)) (acc : List Char), acc ≠ [] →
      ts.foldl (fun full t => full ++ (if full.isEmpty then [] else sep) ++ jsTrim t) acc =
        acc ++ (ts.map (fun t => sep ++ jsTrim t)).flatten
  | [], acc, _ => by simp
  | t :: ts, acc, hne => by
    simp only [List.foldl_cons]
    have hie : acc.isEmpty = false := by
      cases acc with
      | nil => exact absurd rfl hne
      | cons a l => rfl
    rw [hie]
    simp only [Bool.false_eq_true, if_false]
    rw [dispatch_concat_foldl_of_ne sep ts (acc ++ sep ++ jsTrim t) (by
      intro hcontra
      rw [List.append_assoc, List.append_eq_nil] at hcontra
      exact hne hcontra.1)]
    simp [List.append_assoc]

theorem intercalate_cons_eq_flatten (sep : List Char) :
    ∀ (x : List Char) (l : List (List Char)),
      List.intercalate sep (x :: l) = x ++ (l.map (fun t => sep ++ t)).flatten
  | x, [] => by simp [List.intercalate]
  | x, y :: l => by
    have hrec := intercalate_cons_eq_flatten sep y l
    simp only [List.intercalate, List.intersperse] at hrec ⊢
    simp only [List.flatten_cons, hrec, List.map_cons]
    simp [List.append_assoc]

/-- C8 amended.  The dispatch loops' final output equals the per-chunk texts
each trimmed of leading and trailing whitespace, with the leading run of
empty trimmed texts removed, joined with a single blank line between
consecutive entries: a separator is emitted only once the accumulated result
is non-empty, so chunks whose trimmed text arrives while the accumulator is
still empty contribute no leading separator. -/
theorem dispatch_concat_amended :
    ∀ chunkTexts : List (List Char),
      dispatchConcat chunkTexts =
        List.intercalate ['\n', '\n'] ((chunkTexts.map jsTrim).dropWhile List.isEmpty)
  | [] => by simp [dispatchConcat, List.intercalate]
  | t :: ts => by
    simp only [dispatchConcat, List.foldl_cons, List.map_cons]
    by_cases ht : jsTrim t = []
    · rw [ht]
      simp only [List.isEmpty_nil, if_true, List.append_nil, List.dropWhile_cons,
        List.isEmpty_nil]
      exact dispatch_concat_amended ts
    · have hie : (jsTrim t).isEmpty = false := by
        cases hjt : jsTrim t with
        | nil => exact absurd hjt ht
        | cons a l => rfl
      simp only [List.isEmpty_nil, if_true, List.nil_append, List.dropWhile_cons, hie,
        Bool.false_eq_true, if_false]
      rw [dispatch_concat_foldl_of_ne ['\n', '\n'] ts (jsTrim t) ht,
        intercalate_cons_eq_flatten]
      simp only [List.map_map]
      rfl

/-! ## C6: the computed wait duration -/

/-- C6 counterexample.  A quota rejection whose structured `RetryInfo` delay
is present and parses to 0 ms while its message matches `retry in 7s`: the
claim ("the structured retry delay whenever that structured field is
present") mandates a 0 ms wait, but the code's falsy test `!retryDelayMs`
conflates 0 with absence and computes 7000 ms from the message pattern. -/
theorem quota_wait_counterexample :
    (parseQuotaError zeroDelayQuotaError).isQuota = true ∧
    structuredRetryDelayMs zeroDelayQuotaError = some 0 ∧
    computeWaitMs zeroDelayQuotaError = 7000 ∧
    computeWaitMs zeroDelayQuotaError ≠
      claimedWaitMs (structuredRetryDelayMs zeroDelayQuotaError)
        (patternRetryDelayMs zeroDelayQuotaError) := by
  have hs : structuredRetryDelayMs zeroDelayQuotaError = some 0 := by
    simp [structuredRetryDelayMs, zeroDelayQuotaError, parseRetryDelayMs]
  have hw : computeWaitMs zeroDelayQuotaError = 7000 := by
    simp +decide [computeWaitMs, parseQuotaError, zeroDelayQuotaError,
      structuredRetryDelayMs, parseRetryDelayMs, messageOf, findRetryMatch,
      tryRetryMatchAt, retryLiteral, startsWithCI, charLowerEq, jsWhitespace,
      isDigitOrDot, jsParseFloat, stripTrailingS, digitsToNat,
      List.takeWhile, List.dropWhile]
    norm_num
  refine ⟨by decide, hs, hw, ?_⟩
  rw [hw, hs]
  simp [claimedWaitMs]

/-- C6 amended.  For every quota-classified rejection the computed wait is:
the structured retry delay whenever it is present and non-zero; otherwise
(structured delay absent, unparseable, or zero) the parsed value of the
message's `retry in N s` pattern when that pattern is present and parses; a
zero structured delay with no pattern match in the message is kept as a zero
wait; in every remaining case the wait is exactly 20 seconds. -/
theorem quota_wait_selection_amended (e : GenError)
    (hq : (parseQuotaError e).isQuota = true) :
    computeWaitMs e = amendedWaitMs (structuredRetryDelayMs e) (patternRetryDelayMs e) := by
  unfold computeWaitMs
  simp only [parseQuotaError] at hq ⊢
  split at hq
  next hcond =>
    rw [if_pos hcond]
    rcases hr1 : structuredRetryDelayMs e with _ | v
    · rw [if_pos (Or.inl rfl)]
      cases hm : findRetryMatch (messageOf e) with
      | none => simp [amendedWaitMs, patternRetryDelayMs, hm, hr1, DEFAULT_RATE_LIMIT_DELAY_MS]
      | some cap =>
        cases hp : parseRetryDelayMs (some (.str (cap ++ ['s']))) with
        | none => simp [amendedWaitMs, patternRetryDelayMs, hm, hp, DEFAULT_RATE_LIMIT_DELAY_MS]
        | some w => simp [amendedWaitMs, patternRetryDelayMs, hm, hp, DEFAULT_RATE_LIMIT_DELAY_MS]
    · by_cases hv : v = 0
      · subst hv
        rw [if_pos (Or.inr rfl)]
        cases hm : findRetryMatch (messageOf e) with
        | none => simp [amendedWaitMs, patternRetryDelayMs, hm, DEFAULT_RATE_LIMIT_DELAY_MS]
        | some cap =>
          cases hp : parseRetryDelayMs (some (.str (cap ++ ['s']))) with
          | none => simp [amendedWaitMs, patternRetryDelayMs, hm, hp, DEFAULT_RATE_LIMIT_DELAY_MS]
          | some w => simp [amendedWaitMs, patternRetryDelayMs, hm, hp, DEFAULT_RATE_LIMIT_DELAY_MS]
      · rw [if_neg (by simp [hv])]
        simp [amendedWaitMs, hv]
  next =>
    simp at hq

/-- Witness for C6's amended rule at a concrete quota rejection whose only
delay information is the message pattern `retry in 5s`. -/
theorem quota_wait_selection_amended_witness :
    computeWaitMs patternQuotaError =
      amendedWaitMs (structuredRetryDelayMs patternQuotaError)
        (patternRetryDelayMs patternQuotaError) :=
  quota_wait_selection_amended patternQuotaError (by decide)

/-! ## Splitter lemmas -/

theorem nextSplitIndex_gt (s : List Char) (start : Nat) : start < nextSplitIndex s start := by
  simp only [nextSplitIndex, TEXT_PART_CHAR_LIMIT]
  split
  next h1 =>
    split
    next => omega
    next h2 => omega
  next h1 =>
    omega

theorem splitLoopAux_congr (s : List Char) :
    ∀ (f1 f2 start : Nat), s.length - start < f1 → s.length - start < f2 →
      splitLoopAux s f1 start = splitLoopAux s f2 start
  | 0, _, _, h1, _ => absurd h1 (by omega)
  | _ + 1, 0, _, _, h2 => absurd h2 (by omega)
  | f1 + 1, f2 + 1, start, h1, h2 => by
    simp only [splitLoopAux]
    by_cases hs : start < s.length
    · simp only [hs, if_true]
      by_cases hsmall : s.length - start ≤ TEXT_PART_CHAR_LIMIT
      · simp [hsmall]
      · simp only [hsmall, if_false]
        congr 1
        have hgt := nextSplitIndex_gt s start
        exact splitLoopAux_congr s f1 f2 (nextSplitIndex s start) (by omega) (by omega)
    · simp [hs]

/-- One-step unfolding of the splitting loop, in the shape of the source's
`while` body. -/
theorem splitLoop_eq (s : List Char) (start : Nat) :
    splitLoop s start =
      if start < s.length then
        if s.length - start ≤ TEXT_PART_CHAR_LIMIT then [s.drop start]
        else
          (s.drop start).take (nextSplitIndex s start - start) ::
            splitLoop s (nextSplitIndex s start)
      else [] := by
  unfold splitLoop
  conv_lhs => simp only [splitLoopAux]
  by_cases hs : start < s.length
  · simp only [hs, if_true]
    by_cases hsmall : s.length - start ≤ TEXT_PART_CHAR_LIMIT
    · simp [hsmall]
    · simp only [hsmall, if_false]
      congr 1
      have hgt := nextSplitIndex_gt s start
      exact splitLoopAux_congr s s.length (s.length + 1) (nextSplitIndex s start)
        (by omega) (by omega)
  · simp [hs]

/-- The emitted slices of the splitting loop cover the suffix from `start`
exactly. -/
theorem splitLoop_flatten (s : List Char) (start : Nat) :
    (splitLoop s start).flatten = s.drop start := by
  rw [splitLoop_eq]
  split
  next hs =>
    split
    next hsmall => simp
    next hbig =>
      simp only [List.flatten_cons]
      rw [splitLoop_flatten s (nextSplitIndex s start)]
      have hk : start ≤ nextSplitIndex s start := le_of_lt (nextSplitIndex_gt s start)
      rw [show s.drop (nextSplitIndex s start) =
          (s.drop start).drop (nextSplitIndex s start - start) by
        rw [List.drop_drop]
        congr 1
        omega]
      exact List.take_append_drop _ _
  next hs =>
    simp only [List.flatten_nil]
    rw [List.drop_eq_nil_of_le (by omega)]
termination_by s.length - start
decreasing_by
  have := nextSplitIndex_gt s start
  omega

/-! ## C10: the splitter loses no non-whitespace content -/

/-- C10.  For every input string the blocks of `splitTextChunk` are exactly
the non-whitespace-only pieces of a decomposition of the CRLF-normalised
input: some piece list flattens to the normalised input, and the returned
blocks are precisely those pieces whose `trim` is non-empty (so when no
produced piece is whitespace-only, the concatenation of the returned blocks
is exactly the normalised input). -/
theorem splitter_content_preservation (text : List Char) :
    ∃ pieces : List (List Char), pieces.flatten = normalizeCRLF text ∧
      splitTextChunk text =
        pieces.filter (fun chunk => decide (0 < (jsTrim chunk).length)) :=
  ⟨splitLoop (normalizeCRLF text) 0, by rw [splitLoop_flatten, List.drop_zero], rfl⟩

/-! ## Break-search lemmas -/

theorem breakAt_eq_false_of_len {s : List Char} {i : Nat} (h : s.length ≤ i + 1) :
    breakAt s i = false := by
  unfold breakAt
  rw [List.getElem?_eq_none h]
  simp

theorem lastBreakBefore_le (s : List Char) : ∀ n, lastBreakBefore s n ≤ (n : Int)
  | 0 => by
    simp only [lastBreakBefore]
    split <;> omega
  | n + 1 => by
    simp only [lastBreakBefore]
    split
    · omega
    · have := lastBreakBefore_le s n
      omega

theorem lastBreakBefore_spec (s : List Char) :
    ∀ n j, j ≤ n → breakAt s j = true → (j : Int) ≤ lastBreakBefore s n
  | 0, j, hj, hb => by
    have hj0 : j = 0 := by omega
    subst hj0
    simp [lastBreakBefore, hb]
  | n + 1, j, hj, hb => by
    simp only [lastBreakBefore]
    split
    next => omega
    next hnb =>
      have hji : j ≤ n := by
        rcases Nat.lt_or_ge j (n + 1) with h | h
        · omega
        · have hj1 : j = n + 1 := by omega
          subst hj1
          rw [hb] at hnb
          exact absurd rfl hnb
      exact lastBreakBefore_spec s n j hji hb

theorem lastBreakBefore_eq_neg_one (s : List Char) :
    ∀ n, (∀ j, j ≤ n → breakAt s j = false) → lastBreakBefore s n = -1
  | 0, h => by simp [lastBreakBefore, h 0 (le_refl 0)]
  | n + 1, h => by
    simp only [lastBreakBefore, h (n + 1) (le_refl _)]
    simp only [Bool.false_eq_true, if_false]
    exact lastBreakBefore_eq_neg_one s n (fun j hj => h j (by omega))

theorem firstBreakFrom_spec (s : List Char) : ∀ i : Nat,
    (firstBreakFrom s i = -1 ∧ ∀ j, i ≤ j → breakAt s j = false) ∨
    ((i : Int) ≤ firstBreakFrom s i ∧ breakAt s (firstBreakFrom s i).toNat = true ∧
      ∀ m, i ≤ m → (m : Int) < firstBreakFrom s i → breakAt s m = false) := by
  intro i
  unfold firstBreakFrom
  split
  next h =>
    split
    next hb =>
      right
      refine ⟨by omega, by simpa using hb, ?_⟩
      intro m hm hlt
      omega
    next hb =>
      have hbi : breakAt s i = false := by
        rw [Bool.not_eq_true] at hb
        exact hb
      rcases firstBreakFrom_spec s (i + 1) with ⟨hneg, hall⟩ | ⟨hge, hbreak, hno⟩
      · left
        refine ⟨hneg, ?_⟩
        intro j hj
        rcases Nat.eq_or_lt_of_le hj with rfl | hj
        · exact hbi
        · exact hall j (by omega)
      · right
        refine ⟨by omega, hbreak, ?_⟩
        intro m hm hlt
        rcases Nat.eq_or_lt_of_le hm with rfl | hm
        · exact hbi
        · exact hno m (by omega) hlt
  next h =>
    left
    refine ⟨rfl, ?_⟩
    intro j hj
    exact breakAt_eq_false_of_len (by omega)
termination_by i => s.length - i
decreasing_by omega

theorem breakAt_take_drop_lt (s : List Char) (start k i : Nat) (h : i + 1 < k - start) :
    breakAt ((s.drop start).take (k - start)) i = breakAt s (start + i) := by
  unfold breakAt
  rw [List.getElem?_take_of_lt (by omega), List.getElem?_take_of_lt h,
    List.getElem?_drop, List.getElem?_drop]
  rw [show start + (i + 1) = start + i + 1 by omega]

theorem breakAt_take_ge (s : List Char) (start k i : Nat) (h : k - start ≤ i + 1) :
    breakAt ((s.drop start).take (k - start)) i = false := by
  apply breakAt_eq_false_of_len
  rw [List.length_take, List.length_drop]
  omega

theorem no_back_break {s : List Char} {n : Nat} {start : Nat}
    (h1 : lastBreakBefore s n ≤ (start : Int)) :
    ∀ j, start < j → j ≤ n → breakAt s j = false := by
  intro j hj1 hj2
  by_contra hb
  rw [Bool.not_eq_false] at hb
  have := lastBreakBefore_spec s n j hj2 hb
  omega

theorem nextSplitIndex_cases (s : List Char) (start : Nat) :
    nextSplitIndex s start ≤ start + TEXT_PART_CHAR_LIMIT ∨
    (lastBreakBefore s (start + TEXT_PART_CHAR_LIMIT) ≤ (start : Int) ∧
      (start : Int) < firstBreakFrom s (start + TEXT_PART_CHAR_LIMIT) ∧
      nextSplitIndex s start = (firstBreakFrom s (start + TEXT_PART_CHAR_LIMIT)).toNat) := by
  simp only [nextSplitIndex]
  by_cases h1 : lastBreakBefore s (start + TEXT_PART_CHAR_LIMIT) ≤ (start : Int)
  · rw [if_pos h1]
    by_cases h2 : firstBreakFrom s (start + TEXT_PART_CHAR_LIMIT) ≤ (start : Int)
    · rw [if_pos h2]
      left
      omega
    · rw [if_neg h2]
      right
      exact ⟨h1, by omega, rfl⟩
  · rw [if_neg h1, if_neg h1]
    have hle := lastBreakBefore_le s (start + TEXT_PART_CHAR_LIMIT)
    left
    omega

/-! ## C4 amended: the block-length bound -/

theorem splitLoop_block_bound (s : List Char) (start : Nat) :
    ∀ b ∈ splitLoop s start,
      b.length ≤ TEXT_PART_CHAR_LIMIT ∨ ∀ i, 1 ≤ i → breakAt b i = false := by
  intro b hb
  rw [splitLoop_eq] at hb
  split at hb
  next hs =>
    split at hb
    next hsmall =>
      rw [List.mem_singleton] at hb
      subst hb
      left
      rw [List.length_drop]
      exact hsmall
    next hbig =>
      rcases List.mem_cons.mp hb with rfl | hb
      · rcases nextSplitIndex_cases s start with hle | ⟨hback, hfwd, heq⟩
        · left
          rw [List.length_take]
          omega
        · right
          intro i hi
          rw [heq]
          rcases firstBreakFrom_spec s (start + TEXT_PART_CHAR_LIMIT) with ⟨hneg, _⟩ |
            ⟨hge, hbreak, hnof⟩
          · rw [hneg] at hfwd
            exact absurd hfwd (by omega)
          · by_cases hi2 :
              i + 1 < (firstBreakFrom s (start + TEXT_PART_CHAR_LIMIT)).toNat - start
            · rw [breakAt_take_drop_lt s start _ i hi2]
              by_cases hmT : start + i ≤ start + TEXT_PART_CHAR_LIMIT
              · exact no_back_break hback (start + i) (by omega) hmT
              · exact hnof (start + i) (by omega) (by omega)
            · exact breakAt_take_ge s start _ i (by omega)
      · exact splitLoop_block_bound s (nextSplitIndex s start) b hb
  next hs =>
    exact absurd hb (List.not_mem_nil b)
termination_by s.length - start
decreasing_by
  have := nextSplitIndex_gt s start
  omega

/-- C4 amended.  Every text block returned by the Text Splitter either has
length at most the 12 000-character ceiling, or — when the forward
paragraph-boundary search chose the cut because no boundary existed at or
before the ceiling within the block's window — runs to the next paragraph
boundary and contains no `"\n\n"` starting after its first character; and
the empty or whitespace-only string yields the empty sequence. -/
theorem splitter_ceiling_amended :
    (∀ (text b : List Char), b ∈ splitTextChunk text →
      b.length ≤ TEXT_PART_CHAR_LIMIT ∨ ∀ i, 1 ≤ i → breakAt b i = false) ∧
    (∀ text : List Char, (jsTrim text).isEmpty = true → splitTextIntoParts text = []) := by
  constructor
  · intro text b hb
    exact splitLoop_block_bound (normalizeCRLF text) 0 b (List.mem_of_mem_filter hb)
  · intro text ht
    simp [splitTextIntoParts, ht]

/-! ## C4 counterexample: a block beyond the ceiling -/

theorem normalizeCRLF_cons_ne (c : Char) (rest : List Char) (hc : c ≠ '\r') :
    normalizeCRLF (c :: rest) = c :: normalizeCRLF rest := by
  rw [normalizeCRLF.eq_def]
  split
  next heq => exact List.noConfusion heq
  next r heq =>
    injection heq with h1 h2
    exact absurd h1 hc
  next c' r hne heq =>
    injection heq with h1 h2
    rw [h1, h2]

theorem normalizeCRLF_of_no_cr :
    ∀ t : List Char, (∀ c ∈ t, c ≠ '\r') → normalizeCRLF t = t
  | [], _ => rfl
  | c :: rest, h => by
    rw [normalizeCRLF_cons_ne c rest (h c (List.mem_cons_self c rest))]
    rw [normalizeCRLF_of_no_cr rest (fun d hd => h d (List.mem_cons_of_mem c hd))]

theorem dropWhile_replicate_of_neg (p : Char → Bool) (a : Char) (h : p a = false) :
    ∀ n, List.dropWhile p (List.replicate n a) = List.replicate n a
  | 0 => rfl
  | n + 1 => by
    rw [List.replicate_succ, List.dropWhile_cons, h]
    simp

theorem jsTrim_replicate_a (n : Nat) :
    jsTrim (List.replicate n 'a') = List.replicate n 'a' := by
  unfold jsTrim
  rw [dropWhile_replicate_of_neg jsWhitespace 'a' (by decide) n, List.reverse_replicate,
    dropWhile_replicate_of_neg jsWhitespace 'a' (by decide) n, List.reverse_replicate]

theorem oversizedBlockInput_length : oversizedBlockInput.length = 12004 := by
  rw [oversizedBlockInput, List.length_append, List.length_replicate]
  rfl

theorem oversizedBlockInput_get_low :
    ∀ j, j < 12001 → oversizedBlockInput[j]? = some 'a' := by
  intro j hj
  rw [show oversizedBlockInput = List.replicate 12001 'a' ++ ['\n', '\n', 'a'] from rfl]
  rw [List.getElem?_append_left (by rw [List.length_replicate]; exact hj)]
  rw [List.getElem?_replicate, if_pos hj]

theorem oversizedBlockInput_break_low :
    ∀ j, j ≤ 12000 → breakAt oversizedBlockInput j = false := by
  intro j hj
  unfold breakAt
  rw [oversizedBlockInput_get_low j (by omega)]
  rw [show ((some 'a' : Option Char) == some '\n') = false from rfl, Bool.false_and]

theorem oversizedBlockInput_break_high : breakAt oversizedBlockInput 12001 = true := by
  unfold breakAt
  rw [show oversizedBlockInput = List.replicate 12001 'a' ++ ['\n', '\n', 'a'] from rfl]
  rw [List.getElem?_append_right (by rw [List.length_replicate]),
    List.getElem?_append_right (by rw [List.length_replicate]; omega)]
  simp only [List.length_replicate]
  decide

theorem oversizedBlockInput_firstBreak :
    firstBreakFrom oversizedBlockInput 12000 = 12001 := by
  rcases firstBreakFrom_spec oversizedBlockInput 12000 with ⟨hneg, hall⟩ | ⟨hge, hbreak, hno⟩
  · have h := hall 12001 (by omega)
    rw [oversizedBlockInput_break_high] at h
    exact absurd h (by decide)
  · by_cases hF : firstBreakFrom oversizedBlockInput 12000 = 12001
    · exact hF
    · exfalso
      by_cases hFlt : firstBreakFrom oversizedBlockInput 12000 < 12001
      · have hle : (firstBreakFrom oversizedBlockInput 12000).toNat ≤ 12000 := by omega
        have hlow := oversizedBlockInput_break_low _ hle
        rw [hbreak] at hlow
        exact absurd hlow (by decide)
      · have h12001 := hno 12001 (by omega) (by omega)
        rw [oversizedBlockInput_break_high] at h12001
        exact absurd h12001 (by decide)

theorem oversizedBlockInput_next : nextSplitIndex oversizedBlockInput 0 = 12001 := by
  have hlast : lastBreakBefore oversizedBlockInput 12000 = -1 :=
    lastBreakBefore_eq_neg_one _ _ (fun j hj => oversizedBlockInput_break_low j hj)
  simp only [nextSplitIndex, TEXT_PART_CHAR_LIMIT, Nat.zero_add, hlast,
    oversizedBlockInput_firstBreak]
  decide

theorem oversizedBlockInput_splitLoop :
    splitLoop oversizedBlockInput 0 =
      [List.replicate 12001 'a', ['\n', '\n', 'a']] := by
  have htake : (oversizedBlockInput.drop 0).take (12001 - 0) = List.replicate 12001 'a' := by
    rw [List.drop_zero,
      show oversizedBlockInput = List.replicate 12001 'a' ++ ['\n', '\n', 'a'] from rfl]
    exact List.take_left' (by rw [List.length_replicate])
  have hrest : splitLoop oversizedBlockInput 12001 = [['\n', '\n', 'a']] := by
    rw [splitLoop_eq, oversizedBlockInput_length, if_pos (by decide), if_pos (by decide)]
    rw [show oversizedBlockInput = List.replicate 12001 'a' ++ ['\n', '\n', 'a'] from rfl]
    rw [List.drop_left' (by rw [List.length_replicate])]
  rw [splitLoop_eq, oversizedBlockInput_length, if_pos (by decide), if_neg (by decide),
    oversizedBlockInput_next, htake, hrest]

/-- C4 counterexample.  On `oversizedBlockInput` (12 001 letters before the
first paragraph boundary) the Text Splitter returns a block of 12 001
characters: the claim that every returned block is at most 12 000 characters
is false, because the forward search extends a block past the ceiling to the
next paragraph boundary. -/
theorem splitter_ceiling_counterexample :
    ∃ b ∈ splitTextChunk oversizedBlockInput, TEXT_PART_CHAR_LIMIT < b.length := by
  refine ⟨List.replicate 12001 'a', ?_, by rw [List.length_replicate]; decide⟩
  unfold splitTextChunk
  rw [normalizeCRLF_of_no_cr oversizedBlockInput (by
    intro c hc
    rw [show oversizedBlockInput = List.replicate 12001 'a' ++ ['\n', '\n', 'a'] from rfl]
      at hc
    rcases List.mem_append.mp hc with hc | hc
    · rw [List.eq_of_mem_replicate hc]
      decide
    · rcases hc with _ | ⟨_, _ | ⟨_, _ | ⟨_, ⟨⟩⟩⟩⟩ <;> decide)]
  rw [oversizedBlockInput_splitLoop]
  rw [List.mem_filter]
  refine ⟨List.mem_cons_self _ _, ?_⟩
  rw [jsTrim_replicate_a, List.length_replicate]
  decide

end MdConverter
